import Mathlib

/-!
Verification of the self-play training-data generator (scripts/gensfen.py).

The Python source is shallowly embedded as executable Lean definitions:

* The Stockfish-style bitstream writer operates on a 32-entry uint8 numpy
  array: writing a bit sets bit (pos mod 8) of byte (pos / 8).  We embed the
  32-byte buffer as a single natural number in little-endian byte order,
  where byte j of the buffer is (data >>> (8 * j)) % 256.  Under this view
  the source operation data[pos/8] |= 1 << (pos & 7) is exactly
  data ||| (1 <<< pos), because 8 * (pos / 8) + pos % 8 = pos.
* numpy uint16 coercions from the source are rendered as explicit % 65536.
* Chess boards, moves and engine responses are abstracted as structures
  holding exactly the fields the source queries.
-/

/-- Constants from the top of scripts/gensfen.py. -/
def BATCH_SIZE : Nat := 1000

def MAX_PLY : Nat := 400

def MIN_DRAW_PLY : Nat := 80

def DRAW_SCORE : Int := 10

def DRAW_COUNT : Nat := 10

def RESIGN_SCORE : Int := 10000

def RESIGN_COUNT : Nat := 10

/-- HUFFMAN_TABLE from gensfen.py: per-piece-type codes (index by the
python-chess piece type, PAWN = 1 .. QUEEN = 5). -/
def HUFFMAN_TABLE : List Nat := [0, 1, 3, 5, 7, 9]

/-- python-chess piece-type constant KING. -/
def KING : Nat := 6

/-- Abstraction of a python-chess Board: exactly the fields gensfen.py reads
when encoding a position.  Piece types follow python-chess numbering
(PAWN = 1, KNIGHT = 2, BISHOP = 3, ROOK = 4, QUEEN = 5, KING = 6); colors are
booleans with true = WHITE as in python-chess. -/
structure Board where
  pieceTypeAt : Nat → Option Nat
  colorAt : Nat → Bool
  turn : Bool
  wk : Nat
  bk : Nat
  castleWK : Bool
  castleWQ : Bool
  castleBK : Bool
  castleBQ : Bool
  ep : Option Nat
  halfmove : Nat
  fullmove : Nat

/-- encode_bit from gensfen.py.  The buffer is a Nat viewed as 32
little-endian bytes; the source sets bit (pos mod 8) of byte (pos / 8),
i.e. bit pos of the buffer, whenever np.uint16(value) is nonzero. -/
def encode_bit (data pos value : Nat) : Nat × Nat :=
  (if value % 65536 ≠ 0 then data ||| (1 <<< pos) else data, pos + 1)

/-- encode_bits from gensfen.py: for i in range(nbits), encode the bit
value &&& (1 <<< i). -/
def encode_bits (data pos value nbits : Nat) : Nat × Nat :=
  (List.range nbits).foldl
    (fun dp i => encode_bit dp.1 dp.2 (value &&& (1 <<< i))) (data, pos)

/-- encode_piece_at from gensfen.py: an empty square is one 0 bit; an
occupied square is the 4-bit Huffman code of the piece type followed by one
color bit (np.uint16(not piece_color): 0 for white, 1 for black). -/
def encode_piece_at (data pos : Nat) (b : Board) (sq : Nat) : Nat × Nat :=
  match b.pieceTypeAt sq with
  | none => encode_bits data pos (HUFFMAN_TABLE.getD 0 0 % 65536) 1
  | some pt =>
      let dp := encode_bits data pos (HUFFMAN_TABLE.getD pt 0 % 65536) 4
      encode_bit dp.1 dp.2 (if b.colorAt sq then 0 else 1)

/-- The square visit order of encode_position: for r in reversed(range(8)),
for f in range(8), sq = r*8 + f.  This runs a8, b8, ..., h8, a7, ..., h1. -/
def squaresA8H1 : List Nat :=
  ((List.range 8).reverse).flatMap (fun r => (List.range 8).map (fun f => r * 8 + f))

/-- encode_position from gensfen.py.  Returns the 32-byte buffer as a Nat in
little-endian byte order.  King squares are skipped in the per-square loop;
the en-passant branch tests pythonic falsiness (None or square 0). -/
def encode_position (b : Board) : Nat :=
  let dp := encode_bit 0 0 (if b.turn then 0 else 1)
  let dp := encode_bits dp.1 dp.2 (b.wk % 65536) 6
  let dp := encode_bits dp.1 dp.2 (b.bk % 65536) 6
  let dp := squaresA8H1.foldl
    (fun dp sq =>
      match b.pieceTypeAt sq with
      | some pt => if pt = KING then dp else encode_piece_at dp.1 dp.2 b sq
      | none => encode_piece_at dp.1 dp.2 b sq) dp
  let dp := encode_bit dp.1 dp.2 (if b.castleWK then 1 else 0)
  let dp := encode_bit dp.1 dp.2 (if b.castleWQ then 1 else 0)
  let dp := encode_bit dp.1 dp.2 (if b.castleBK then 1 else 0)
  let dp := encode_bit dp.1 dp.2 (if b.castleBQ then 1 else 0)
  let dp := match b.ep with
    | none => encode_bit dp.1 dp.2 0
    | some sq =>
        if sq = 0 then
          encode_bit dp.1 dp.2 0
        else
          let dp2 := encode_bit dp.1 dp.2 1
          encode_bits dp2.1 dp2.2 (sq % 65536) 6
  let dp := encode_bits dp.1 dp.2 (b.halfmove % 65536) 6
  let dp := encode_bits dp.1 dp.2 (b.fullmove % 65536) 8
  let dp := encode_bits dp.1 dp.2 ((b.fullmove >>> 8) % 65536) 8
  let dp := encode_bit dp.1 dp.2 ((b.halfmove >>> 6) &&& 1)
  dp.1

/-- Abstraction of a python-chess Move together with the board predicates
encode_move queries on it (turn, castling classification, en passant). -/
structure MoveInput where
  to_square : Nat
  from_square : Nat
  promotion : Option Nat
  turn : Bool
  isKingsideCastling : Bool
  isQueensideCastling : Bool
  isEnPassant : Bool
  deriving DecidableEq

/-- encode_move from gensfen.py.  board.is_castling(move) is the disjunction
of the kingside and queenside tests; np.uint16 coercions are explicit
% 65536. -/
def encode_move (m : MoveInput) : Nat :=
  let to_sq :=
    if m.turn ∧ m.isKingsideCastling then 7
    else if m.turn ∧ m.isQueensideCastling then 0
    else if (¬m.turn) ∧ m.isKingsideCastling then 63
    else if (¬m.turn) ∧ m.isQueensideCastling then 56
    else m.to_square
  let data : Nat := 0
  let data := data ||| (to_sq % 65536)
  let data := data ||| ((m.from_square <<< 6) % 65536)
  let data :=
    match m.promotion with
    | some p => (data ||| (((p - 2) <<< 12) % 65536)) ||| ((1 <<< 14) % 65536)
    | none => data
  if m.isEnPassant then data ||| ((2 <<< 14) % 65536)
  else if m.isKingsideCastling ∨ m.isQueensideCastling then
    data ||| ((3 <<< 14) % 65536)
  else data

/-- Mover-relative result sign used by both writers: the stored result is
negated when the recorded score's turn was BLACK (false). -/
def povResult (turn : Bool) (result : Int) : Int :=
  if turn = false then -result else result

/-- One recorded sfen entry as built by play_game: the position, the move
played, the mover (the turn of the stored PovScore), the mover-relative
centipawn score, and the ply counter. -/
structure Sfen where
  board : Board
  move : MoveInput
  scoreTurn : Bool
  relScore : Int
  ply : Nat

/-- Little-endian byte list of a Nat, k bytes. -/
def bytesLE (n k : Nat) : List Nat :=
  (List.range k).map (fun i => (n >>> (8 * i)) % 256)

/-- Two-byte little-endian image of np.int16 (two's-complement wrap). -/
def int16Bytes (i : Int) : List Nat :=
  bytesLE (i % 65536).toNat 2

/-- One-byte image of np.int8 (two's-complement wrap). -/
def int8Bytes (i : Int) : List Nat :=
  bytesLE (i % 256).toNat 1

/-- write_sfen_bin from gensfen.py as the list of bytes appended to the
file: the 32-byte position block, np.int16 pov score, np.uint16 move data,
np.uint16 ply, np.int8 pov result, and the 0xFF padding byte. -/
def write_sfen_bin (sfen : Sfen) (result : Int) : List Nat :=
  let pov_result := povResult sfen.scoreTurn result
  let pov_score := sfen.relScore
  bytesLE (encode_position sfen.board) 32
    ++ int16Bytes pov_score
    ++ bytesLE (encode_move sfen.move % 65536) 2
    ++ bytesLE (sfen.ply % 65536) 2
    ++ int8Bytes pov_result
    ++ [0xFF]

/-- C1 statement helper: total size of a list of binary records. -/
def binFileSize (l : List (Sfen × Int)) : Nat :=
  (l.map (fun p => (write_sfen_bin p.1 p.2).length)).sum

/-- The bytes of one record, by field group, for the layout conjunct of C1. -/
theorem write_sfen_bin_layout (s : Sfen) (r : Int) :
    write_sfen_bin s r =
      bytesLE (encode_position s.board) 32
        ++ int16Bytes s.relScore
        ++ bytesLE (encode_move s.move % 65536) 2
        ++ bytesLE (s.ply % 65536) 2
        ++ int8Bytes (povResult s.scoreTurn r)
        ++ [0xFF] := rfl

/-- Length of a little-endian byte list. -/
theorem bytesLE_length (n k : Nat) : (bytesLE n k).length = k := by
  simp [bytesLE]

/-- A concrete board (kings on e1 and e8, otherwise empty) used for
counterexamples and witnesses. -/
def kingsBoard : Board where
  pieceTypeAt := fun sq => if sq = 4 then some KING else if sq = 60 then some KING else none
  colorAt := fun sq => sq = 4
  turn := true
  wk := 4
  bk := 60
  castleWK := false
  castleWQ := false
  castleBK := false
  castleBQ := false
  ep := none
  halfmove := 0
  fullmove := 1

/-- A concrete quiet non-castling move (e2 to e3). -/
def plainMove : MoveInput where
  to_square := 20
  from_square := 12
  promotion := none
  turn := true
  isKingsideCastling := false
  isQueensideCastling := false
  isEnPassant := false

/-- A concrete recorded entry over the concrete board and move. -/
def plainSfen : Sfen where
  board := kingsBoard
  move := plainMove
  scoreTurn := true
  relScore := 25
  ply := 2

/-- C1 counterexample: the binary record written for a concrete position is
40 bytes, not 44, and two records occupy 80 bytes, not 88.  The field
widths in the source comment (256 + 16 + 16 + 16 + 8 + 8 bits) also sum to
40 bytes, so the code agrees with its own documentation. -/
theorem write_sfen_bin_not_44 :
    (write_sfen_bin plainSfen 0).length = 40 ∧
    (write_sfen_bin plainSfen 0).length ≠ 44 ∧
    binFileSize [(plainSfen, 0), (plainSfen, 0)] = 80 := by
  have h : (write_sfen_bin plainSfen 0).length = 40 := by
    simp [write_sfen_bin, int16Bytes, int8Bytes, bytesLE_length]
  refine ⟨h, by omega, ?_⟩
  simp [binFileSize, h]

/-- C1 amended: every record written by the binary codec is exactly 40
bytes: a 32-byte position block, 2 score bytes, 2 move bytes, 2 ply bytes,
1 result byte and 1 padding byte; hence a file of k records occupies
40 * k bytes and in particular 2 records occupy 80 bytes. -/
theorem write_sfen_bin_record_size :
    (∀ (s : Sfen) (r : Int), (write_sfen_bin s r).length = 40) ∧
    (∀ l : List (Sfen × Int), binFileSize l = 40 * l.length) ∧
    (∀ (s₁ s₂ : Sfen) (r₁ r₂ : Int),
      binFileSize [(s₁, r₁), (s₂, r₂)] = 80) := by
  have hlen : ∀ (s : Sfen) (r : Int), (write_sfen_bin s r).length = 40 := by
    intro s r
    simp [write_sfen_bin, int16Bytes, int8Bytes, bytesLE_length]
  refine ⟨hlen, ?_, ?_⟩
  · intro l
    induction l with
    | nil => simp [binFileSize]
    | cons hd tl ih =>
        simp only [binFileSize, List.map_cons, List.sum_cons, List.length_cons] at *
        rw [hlen hd.1 hd.2, ih]
        ring
  · intro s₁ s₂ r₁ r₂
    simp [binFileSize, hlen]

/-- Bitwise or of disjoint parts is addition: if d fits below bit p, then
oring in a value shifted to bit p is the same as adding it. -/
theorem lor_mul_two_pow_eq_add {d x p : Nat} (hd : d < 2 ^ p) :
    d ||| x * 2 ^ p = d + x * 2 ^ p := by
  apply Nat.eq_of_testBit_eq
  intro i
  rw [Nat.testBit_or]
  rcases Nat.lt_or_ge i p with h | h
  · obtain ⟨j, hj⟩ : ∃ j, p = i + (j + 1) := ⟨p - i - 1, by omega⟩
    have h2 : x * 2 ^ p = x * 2 ^ j * 2 * 2 ^ i := by
      rw [hj, Nat.pow_add, Nat.pow_succ]; ring
    have hx : Nat.testBit (x * 2 ^ p) i = false := by
      rw [Nat.testBit_to_div_mod, h2,
        Nat.mul_div_cancel _ (Nat.pos_pow_of_pos i (by norm_num))]
      simp [Nat.mul_mod_left]
    have hsum : Nat.testBit (d + x * 2 ^ p) i = Nat.testBit d i := by
      rw [Nat.testBit_to_div_mod, Nat.testBit_to_div_mod, h2,
        Nat.add_mul_div_right _ _ (Nat.pos_pow_of_pos i (by norm_num)),
        Nat.add_mul_mod_self_right]
    rw [hx, hsum, Bool.or_false]
  · have hdf : Nat.testBit d i = false :=
      Nat.testBit_lt_two_pow
        (lt_of_lt_of_le hd (Nat.pow_le_pow_right (by norm_num) h))
    obtain ⟨j, hj⟩ : ∃ j, i = p + j := ⟨i - p, by omega⟩
    have e1 : (2 : Nat) ^ i = 2 ^ p * 2 ^ j := by rw [hj, Nat.pow_add]
    have e2 : (d + x * 2 ^ p) / 2 ^ i = x / 2 ^ j := by
      rw [e1, ← Nat.div_div_eq_div_mul,
        Nat.add_mul_div_right _ _ (Nat.pos_pow_of_pos p (by norm_num)),
        Nat.div_eq_of_lt hd, Nat.zero_add]
    have e3 : x * 2 ^ p / 2 ^ i = x / 2 ^ j := by
      rw [e1, ← Nat.div_div_eq_div_mul,
        Nat.mul_div_cancel _ (Nat.pos_pow_of_pos p (by norm_num))]
    rw [hdf, Bool.false_or, Nat.testBit_to_div_mod, Nat.testBit_to_div_mod, e2, e3]

/-- The rook-origin square the codec stores as destination for a castling
move: 7 or 0 for white kingside or queenside, 63 or 56 for black. -/
def castleDest (m : MoveInput) : Nat :=
  if m.turn then (if m.isKingsideCastling then 7 else 0)
  else (if m.isKingsideCastling then 63 else 56)

/-- Numerals version of the disjoint-or lemma. -/
theorem lor_eq_add_mul {d x c p : Nat} (hc : c = 2 ^ p) (hd : d < c) :
    d ||| x * c = d + x * c := by
  subst hc; exact lor_mul_two_pow_eq_add hd

/-- Oring a single power of two above d is addition. -/
theorem lor_eq_add_pow {d c p : Nat} (hc : c = 2 ^ p) (hd : d < c) :
    d ||| c = d + c := by
  have h := lor_eq_add_mul (x := 1) hc hd
  simpa using h

/-- The destination and origin chunk shared by every encode_move branch. -/
theorem encode_move_base {t f : Nat} (ht : t < 64) (hf : f < 64) :
    ((0 ||| (t % 65536)) ||| ((f <<< 6) % 65536)) = t + f * 64 := by
  have h64 : (64 : Nat) = 2 ^ 6 := by norm_num
  rw [Nat.zero_or, Nat.mod_eq_of_lt (by omega), Nat.shiftLeft_eq, ← h64,
    Nat.mod_eq_of_lt (by omega), lor_eq_add_mul h64 (by omega)]

/-- The or-chain of encode_move for a non-promotion move with special flag
(2 for en passant, 3 for castling). -/
theorem encode_move_chain_flag {t f flag : Nat} (ht : t < 64) (hf : f < 64)
    (hfl : flag ≤ 3) :
    ((0 ||| t % 65536) ||| (f <<< 6) % 65536) ||| (flag <<< 14) % 65536 =
      t + f * 64 + flag * 16384 := by
  rw [encode_move_base ht hf]
  have h14 : (16384 : Nat) = 2 ^ 14 := by norm_num
  rw [Nat.shiftLeft_eq, ← h14, Nat.mod_eq_of_lt (by omega),
    lor_eq_add_mul h14 (by omega)]

/-- The or-chain of encode_move for a promotion move. -/
theorem encode_move_chain_promo {t f pp : Nat} (ht : t < 64) (hf : f < 64)
    (hpp : pp ≤ 3) :
    (((0 ||| t % 65536) ||| (f <<< 6) % 65536) ||| (pp <<< 12) % 65536) |||
        (1 <<< 14) % 65536 =
      t + f * 64 + pp * 4096 + 16384 := by
  rw [encode_move_base ht hf]
  have h12 : (4096 : Nat) = 2 ^ 12 := by norm_num
  have h14 : (2 : Nat) ^ 14 = 16384 := by norm_num
  rw [Nat.shiftLeft_eq pp 12, ← h12, Nat.mod_eq_of_lt (by omega),
    lor_eq_add_mul h12 (by omega),
    show ((1 : Nat) <<< 14 % 65536) = 2 ^ 14 by decide,
    lor_eq_add_pow rfl (by rw [h14]; omega), h14]

/-- C3: the 16-bit move encoding has bits 0-5 the destination square (the
rook origin square for castling: 7/0/63/56 for white kingside, white
queenside, black kingside, black queenside), bits 6-11 the origin square,
bits 12-13 the promotion piece type minus 2 when promoting, and bits 14-15
the special-move flag (0 normal, 1 promotion, 2 en passant, 3 castling). -/
theorem encode_move_bits (m : MoveInput)
    (hto : m.to_square < 64) (hfrom : m.from_square < 64)
    (hpromo : ∀ p, m.promotion = some p → 2 ≤ p ∧ p ≤ 5)
    (hepx : m.isEnPassant = true → m.promotion = none ∧
      m.isKingsideCastling = false ∧ m.isQueensideCastling = false)
    (hcsx : m.isKingsideCastling = true ∨ m.isQueensideCastling = true →
      m.promotion = none ∧ m.isEnPassant = false) :
    encode_move m % 64 =
      (if m.isKingsideCastling = true ∨ m.isQueensideCastling = true
        then castleDest m else m.to_square) ∧
    encode_move m / 64 % 64 = m.from_square ∧
    (∀ p, m.promotion = some p → encode_move m / 4096 % 4 = p - 2) ∧
    encode_move m / 16384 =
      (if m.promotion.isSome then 1
       else if m.isEnPassant = true then 2
       else if m.isKingsideCastling = true ∨ m.isQueensideCastling = true then 3
       else 0) := by
  have hf64 : (m.from_square <<< 6) % 65536 = m.from_square * 64 := by
    rw [Nat.shiftLeft_eq, show (2 : Nat) ^ 6 = 64 from by norm_num]
    exact Nat.mod_eq_of_lt (by omega)
  have hto65 : m.to_square % 65536 = m.to_square := Nat.mod_eq_of_lt (by omega)
  have h64p : (64 : Nat) = 2 ^ 6 := by norm_num
  rcases hp : m.promotion with _ | p
  · rcases hE : m.isEnPassant with _ | _
    · by_cases hcast : m.isKingsideCastling = true ∨ m.isQueensideCastling = true
      · -- castling move
        have hc : castleDest m < 64 := by
          unfold castleDest
          cases m.turn <;> cases m.isKingsideCastling <;> norm_num
        have key : ∀ t : Nat, t < 64 →
            ((0 ||| t % 65536) ||| (m.from_square <<< 6) % 65536) |||
                (3 <<< 14) % 65536 =
              t + m.from_square * 64 + 49152 := by
          intro t ht
          rw [encode_move_base ht hfrom,
            show ((3 : Nat) <<< 14 % 65536) = 3 * 16384 from by decide,
            lor_eq_add_mul (show (16384 : Nat) = 2 ^ 14 from by norm_num)
              (by omega)]
        have he : encode_move m =
            castleDest m + m.from_square * 64 + 49152 := by
          rcases hcast with hK | hQ
          · rcases hT : m.turn with _ | _ <;>
              simp only [encode_move, castleDest, hp, hE, hK, hT,
                eq_self_iff_true, Bool.false_eq_true, Bool.true_eq_false,
                true_and, false_and, and_true, and_false, and_self,
                not_true, not_false_iff, true_or, or_true, false_or,
                or_false, or_self, ite_true, ite_false] <;>
              exact key _ (by norm_num)
          · rcases hK2 : m.isKingsideCastling with _ | _ <;>
              rcases hT : m.turn with _ | _ <;>
                simp only [encode_move, castleDest, hp, hE, hQ, hK2, hT,
                  eq_self_iff_true, Bool.false_eq_true, Bool.true_eq_false,
                  true_and, false_and, and_true, and_false, and_self,
                  not_true, not_false_iff, true_or, or_true, false_or,
                  or_false, or_self, ite_true, ite_false] <;>
                exact key _ (by norm_num)
        refine ⟨?_, ?_, ?_, ?_⟩
        · rw [if_pos hcast, he]; omega
        · rw [he]; omega
        · intro p hp'; exact Option.noConfusion hp'
        · simp only [Option.isSome_none, Bool.false_eq_true, ite_false, hE]
          rw [if_pos hcast, he]; omega
      · -- plain move
        have hK : m.isKingsideCastling = false := by
          rcases h : m.isKingsideCastling with _ | _
          · rfl
          · exact absurd (Or.inl h) hcast
        have hQ : m.isQueensideCastling = false := by
          rcases h : m.isQueensideCastling with _ | _
          · rfl
          · exact absurd (Or.inr h) hcast
        have he : encode_move m = m.to_square + m.from_square * 64 := by
          simp only [encode_move, hp, hE, hK, hQ, Bool.false_eq_true,
            true_and, false_and, and_true, and_false, and_self, not_true,
            not_false_iff, or_self, false_or, or_false, ite_false,
            Nat.zero_or, hf64, hto65]
          exact lor_eq_add_mul h64p hto
        refine ⟨?_, ?_, ?_, ?_⟩
        · rw [if_neg hcast, he]; omega
        · rw [he]; omega
        · intro p hp'; exact Option.noConfusion hp'
        · simp only [Option.isSome_none, Bool.false_eq_true, ite_false, hE]
          rw [if_neg hcast, he]; omega
    · -- en passant
      rcases hepx hE with ⟨-, hK, hQ⟩
      have hKQ : ¬(m.isKingsideCastling = true ∨ m.isQueensideCastling = true) := by
        rw [hK, hQ]; simp
      have he : encode_move m = m.to_square + m.from_square * 64 + 32768 := by
        simp only [encode_move, hp, hE, hK, hQ, Bool.false_eq_true,
          true_and, false_and, and_true, and_false, and_self, not_true,
          not_false_iff, or_self, false_or, or_false, ite_true, ite_false,
          Nat.zero_or, hf64, hto65,
          show (2 : Nat) <<< 14 % 65536 = 32768 from by decide]
        rw [lor_eq_add_mul h64p hto,
          lor_eq_add_pow (show (32768 : Nat) = 2 ^ 15 from by norm_num)
            (by omega)]
      refine ⟨?_, ?_, ?_, ?_⟩
      · rw [if_neg hKQ, he]; omega
      · rw [he]; omega
      · intro p hp'; exact Option.noConfusion hp'
      · simp only [Option.isSome_none, Bool.false_eq_true, ite_false, hE,
          eq_self_iff_true, ite_true]
        rw [he]; omega
  · -- promotion
    obtain ⟨hp2, hp5⟩ := hpromo p hp
    have hE : m.isEnPassant = false := by
      rcases h : m.isEnPassant with _ | _
      · rfl
      · rcases hepx h with ⟨h1, -, -⟩; rw [hp] at h1; exact Option.noConfusion h1
    have hK : m.isKingsideCastling = false := by
      rcases h : m.isKingsideCastling with _ | _
      · rfl
      · rcases hcsx (Or.inl h) with ⟨h1, -⟩; rw [hp] at h1
        exact Option.noConfusion h1
    have hQ : m.isQueensideCastling = false := by
      rcases h : m.isQueensideCastling with _ | _
      · rfl
      · rcases hcsx (Or.inr h) with ⟨h1, -⟩; rw [hp] at h1
        exact Option.noConfusion h1
    have hpp12 : ((p - 2) <<< 12) % 65536 = (p - 2) * 4096 := by
      rw [Nat.shiftLeft_eq, show (2 : Nat) ^ 12 = 4096 from by norm_num]
      exact Nat.mod_eq_of_lt (by omega)
    have hKQ : ¬(m.isKingsideCastling = true ∨ m.isQueensideCastling = true) := by
      rw [hK, hQ]; simp
    have he : encode_move m =
        m.to_square + m.from_square * 64 + (p - 2) * 4096 + 16384 := by
      simp only [encode_move, hp, hE, hK, hQ, Bool.false_eq_true,
        true_and, false_and, and_true, and_false, and_self, not_true,
        not_false_iff, or_self, false_or, or_false, ite_false,
        Nat.zero_or, hf64, hto65, hpp12,
        show (1 : Nat) <<< 14 % 65536 = 16384 from by decide]
      rw [lor_eq_add_mul h64p hto,
        lor_eq_add_mul (show (4096 : Nat) = 2 ^ 12 from by norm_num) (by omega),
        lor_eq_add_pow (show (16384 : Nat) = 2 ^ 14 from by norm_num) (by omega)]
    refine ⟨?_, ?_, ?_, ?_⟩
    · rw [if_neg hKQ, he]; omega
    · rw [he]; omega
    · intro p' hp'
      injection hp' with hpp
      subst hpp
      rw [he]; omega
    · simp only [Option.isSome_some, ite_true]
      rw [he]; omega

/-- Witness for C3 at the concrete move e2e3. -/
theorem encode_move_bits_witness :
    encode_move plainMove % 64 =
      (if plainMove.isKingsideCastling = true ∨
          plainMove.isQueensideCastling = true
        then castleDest plainMove else plainMove.to_square) ∧
    encode_move plainMove / 64 % 64 = plainMove.from_square ∧
    (∀ p, plainMove.promotion = some p →
      encode_move plainMove / 4096 % 4 = p - 2) ∧
    encode_move plainMove / 16384 =
      (if plainMove.promotion.isSome then 1
       else if plainMove.isEnPassant = true then 2
       else if plainMove.isKingsideCastling = true ∨
           plainMove.isQueensideCastling = true then 3
       else 0) :=
  encode_move_bits plainMove (by decide) (by decide)
    (fun p h => Option.noConfusion h)
    (fun h => Bool.noConfusion h)
    (fun h => h.elim (fun h1 => Bool.noConfusion h1) (fun h1 => Bool.noConfusion h1))

/-- The shared WorkPool counters of gensfen.py: remaining_work and
finished_work, both held in multiprocessing Values and mutated only under
position_lock, so every request_work call is atomic and any concurrent run
is some interleaving, i.e. a sequence, of such calls. -/
structure WorkState where
  remaining : Nat
  finished : Nat
  deriving DecidableEq

/-- request_work from gensfen.py: under the lock, add the caller's finished
count to finished_work, allocate npos (0 if nothing remains, all of the
remainder if it is below BATCH_SIZE, else BATCH_SIZE) and subtract it from
remaining_work. -/
def request_work (finished : Nat) (st : WorkState) : Nat × WorkState :=
  let fw := st.finished + finished
  let npos :=
    if st.remaining = 0 then 0
    else if st.remaining < BATCH_SIZE then st.remaining
    else BATCH_SIZE
  (npos, ⟨st.remaining - npos, fw⟩)

/-- A whole run of the coordinator: the interleaved sequence of
request_work calls made by all workers, each carrying that worker's
finished count; returns the allocation of every call and the final state. -/
def runCalls (st : WorkState) : List Nat → List Nat × WorkState
  | [] => ([], st)
  | f :: fs =>
      let r := request_work f st
      let rest := runCalls r.2 fs
      (r.1 :: rest.1, rest.2)

/-- The inner loop of process_func for one batch: pos_left starts at the
batch allocation and play_game is called while pos_left > 0; play_game for
a game with g pending records writes min g pos_left of them (the flush
loop stops when the quota hits zero).  Returns the number of positions
written and the final pos_left. -/
def runGames (posLeft : Nat) : List Nat → Nat × Nat
  | [] => (0, posLeft)
  | g :: gs =>
      if posLeft = 0 then (0, 0)
      else
        let w := min g posLeft
        let rest := runGames (posLeft - w) gs
        (w + rest.1, rest.2)

/-- Allocations over a run never exceed the starting remainder and account
for it exactly. -/
theorem runCalls_sum (fs : List Nat) :
    ∀ st : WorkState, (runCalls st fs).1.sum + (runCalls st fs).2.remaining =
      st.remaining ∧
    (runCalls st fs).2.finished = st.finished + fs.sum := by
  induction fs with
  | nil => intro st; simp [runCalls]
  | cons f fs ih =>
      intro st
      obtain ⟨h1, h2⟩ := ih (request_work f st).2
      refine ⟨?_, ?_⟩
      · simp only [runCalls, List.sum_cons]
        have hr : (request_work f st).1 + (request_work f st).2.remaining =
            st.remaining := by
          simp only [request_work]
          split
          · omega
          · split <;> omega
        omega
      · have hfin : (request_work f st).2.finished = st.finished + f := by
          simp [request_work]
        simp only [runCalls, List.sum_cons]
        rw [h2, hfin]
        omega

/-- Written positions in one batch loop account exactly for the consumed
quota. -/
theorem runGames_sum (gs : List Nat) :
    ∀ pl : Nat, (runGames pl gs).1 + (runGames pl gs).2 = pl := by
  induction gs with
  | nil => intro pl; simp [runGames]
  | cons g gs ih =>
      intro pl
      by_cases h : pl = 0
      · simp [runGames, h]
      · have := ih (pl - min g pl)
        simp only [runGames, if_neg h]
        omega

/-- C4: each request_work call atomically adds the caller's finished count
to the completed counter, allocates min(BATCH_SIZE, remaining), decrements
remaining by exactly that allocation and returns 0 exactly when remaining
is 0; over any complete run (one that has driven remaining to 0, as every
worker observes before exiting) the allocations sum to the initial total
N, and a batch loop that runs games until its quota is exhausted writes
exactly its allocation, so a complete run writes exactly N positions. -/
theorem request_work_conservation (N f r c b : Nat) (fs gs : List Nat)
    (hrun : (runCalls ⟨N, 0⟩ fs).2.remaining = 0)
    (hbatch : (runGames b gs).2 = 0) :
    request_work f ⟨r, c⟩ =
      (min BATCH_SIZE r, ⟨r - min BATCH_SIZE r, c + f⟩) ∧
    ((request_work f ⟨r, c⟩).1 = 0 ↔ r = 0) ∧
    (runCalls ⟨N, 0⟩ fs).1.sum = N ∧
    (runGames b gs).1 = b := by
  have hmin : (if r = 0 then 0 else if r < BATCH_SIZE then r else BATCH_SIZE) =
      min BATCH_SIZE r := by
    split
    · omega
    · split <;> omega
  refine ⟨?_, ?_, ?_, ?_⟩
  · simp only [request_work, hmin]
  · simp only [request_work, hmin]
    unfold BATCH_SIZE
    omega
  · have h := (runCalls_sum fs ⟨N, 0⟩).1
    rw [show (WorkState.mk N 0).remaining = N from rfl] at h
    omega
  · have := runGames_sum gs b
    omega

/-- Witness for C4 at concrete counters: one call at remaining 1500, a run
of three calls draining 2500, and a batch of 1000 written by two games. -/
theorem request_work_conservation_witness :
    request_work 7 ⟨1500, 3⟩ =
      (min BATCH_SIZE 1500, ⟨1500 - min BATCH_SIZE 1500, 3 + 7⟩) ∧
    ((request_work 7 ⟨1500, 3⟩).1 = 0 ↔ 1500 = 0) ∧
    (runCalls ⟨2500, 0⟩ [0, 1000, 1000]).1.sum = 2500 ∧
    (runGames 1000 [300, 700]).1 = 1000 :=
  request_work_conservation 2500 7 1500 3 1000 [0, 1000, 1000] [300, 700]
    (by decide) (by decide)

/-- What one iteration of the play_game loop observes: whether the board is
already game over at the top of the loop, and otherwise the engine search
response (whether a score came back, its mover-relative value), the board
predicates feeding is_quiet, the side to move and the full-move number. -/
structure PlyInput where
  gameOver : Bool
  hasScore : Bool
  relScore : Int
  inCheck : Bool
  isCapture : Bool
  turn : Bool
  fullmove : Nat
  deriving DecidableEq

/-- is_quiet from gensfen.py applied to the observed board predicates. -/
def is_quiet (inp : PlyInput) : Bool :=
  if inp.inCheck then false else !inp.isCapture

/-- PovScore.white() of python-chess for a mover-relative score. -/
def povWhite (turn : Bool) (rel : Int) : Int :=
  if turn then rel else -rel

/-- The ply counter computed by play_game before recording. -/
def plyOf (inp : PlyInput) : Nat :=
  if inp.turn then inp.fullmove * 2 else inp.fullmove * 2 + 1

/-- A buffered position record of a game session (entry of the positions
list of play_game): the observed ply input of the recorded position plus
the computed ply counter. -/
structure SRecord where
  input : PlyInput
  ply : Nat
  deriving DecidableEq

/-- Whether the play_game loop is still running. -/
inductive SessStatus where
  | playing : SessStatus
  | done : SessStatus
  deriving DecidableEq

/-- The loop state of one play_game session: the resign and draw streak
counters, the buffered records, the pending result value, whether the loop
has exited, and how many engine searches were issued. -/
structure GameState where
  resignCount : Nat
  drawCount : Nat
  positions : List SRecord
  resultVal : Int
  status : SessStatus
  nsearches : Nat
  deriving DecidableEq

/-- Session state at the top of the play_game loop. -/
def initGameState : GameState :=
  { resignCount := 0, drawCount := 0, positions := [], resultVal := 0,
    status := SessStatus.playing, nsearches := 0 }

/-- One iteration of the play_game while loop of gensfen.py, given the
observations of that iteration.  Mirrors the source order exactly: loop
condition, engine.play, the no-score skip, the quiet filter, the eval
limit check, recording, the MAX_PLY check, resign adjudication, then draw
adjudication (only counted past MIN_DRAW_PLY).  A finished session is
unchanged by further inputs. -/
def stepPlay (evalLimit : Int) (s : GameState) (inp : PlyInput) : GameState :=
  if s.status = SessStatus.done then s
  else if inp.gameOver then { s with status := SessStatus.done }
  else
    let s := { s with nsearches := s.nsearches + 1 }
    if inp.hasScore = false then s
    else if is_quiet inp = false then s
    else if |inp.relScore| > evalLimit then
      { s with resultVal := if povWhite inp.turn inp.relScore > 0 then 1 else -1,
               status := SessStatus.done }
    else
      let ply := plyOf inp
      let s := { s with positions := s.positions ++ [SRecord.mk inp ply] }
      if ply > MAX_PLY then { s with resultVal := 0, status := SessStatus.done }
      else
        let s :=
          if |inp.relScore| ≥ RESIGN_SCORE then
            { s with resignCount := s.resignCount + 1 }
          else { s with resignCount := 0 }
        if s.resignCount ≥ RESIGN_COUNT then
          { s with resultVal := if inp.relScore > 0 then 1 else -1,
                   status := SessStatus.done }
        else if plyOf inp > MIN_DRAW_PLY then
          let s :=
            if |inp.relScore| ≤ DRAW_SCORE then
              { s with drawCount := s.drawCount + 1 }
            else { s with drawCount := 0 }
          if s.drawCount ≥ DRAW_COUNT then
            { s with resultVal := 0, status := SessStatus.done }
          else s
        else s

/-- Running the play_game loop over a list of per-iteration observations. -/
def runPlay (evalLimit : Int) (s : GameState) (inps : List PlyInput) : GameState :=
  inps.foldl (stepPlay evalLimit) s

/-- A finished session ignores further inputs. -/
theorem stepPlay_done (el : Int) (s : GameState) (inp : PlyInput)
    (h : s.status = SessStatus.done) : stepPlay el s inp = s := by
  simp [stepPlay, h]

/-- A finished session ignores any further input sequence. -/
theorem runPlay_done (el : Int) (s : GameState) (inps : List PlyInput)
    (h : s.status = SessStatus.done) : runPlay el s inps = s := by
  induction inps with
  | nil => rfl
  | cons i l ih =>
      show runPlay el (stepPlay el s i) l = s
      rw [stepPlay_done el s i h, ih]

/-- Unfolding one step of a run. -/
theorem runPlay_cons (el : Int) (s : GameState) (i : PlyInput)
    (l : List PlyInput) :
    runPlay el s (i :: l) = runPlay el (stepPlay el s i) l := rfl

/-- A reported score of 20000 centipawns on a ply where the mover is in
check (a non-quiet ply). -/
def loudCheckInput : PlyInput :=
  { gameOver := false, hasScore := true, relScore := 20000, inCheck := true,
    isCapture := false, turn := true, fullmove := 30 }

/-- C5 counterexample: with the default eval limit 19000, a reported score
of absolute value 20000 at a non-quiet ply does not stop the session: the
loop keeps playing, records nothing, and performs a further search on the
next iteration.  The quiet filter runs before the eval-limit check. -/
theorem eval_limit_not_immediate :
    (19000 < |loudCheckInput.relScore| ∧
      loudCheckInput.hasScore = true ∧
      loudCheckInput.gameOver = false) ∧
    (stepPlay 19000 initGameState loudCheckInput).status = SessStatus.playing ∧
    (stepPlay 19000 initGameState loudCheckInput).resultVal = 0 ∧
    (stepPlay 19000 (stepPlay 19000 initGameState loudCheckInput)
        loudCheckInput).nsearches = 2 := by
  decide

/-- C5 amended: at any QUIET ply with a reported score whose absolute value
exceeds eval_limit, the session immediately stops, classifies the result by
the sign of the white-perspective score, records nothing for that ply, and
performs no further search in that game. -/
theorem eval_limit_quiet_stops (el : Int) (s : GameState) (inp : PlyInput)
    (hs : s.status = SessStatus.playing)
    (hg : inp.gameOver = false)
    (hsc : inp.hasScore = true)
    (hq : is_quiet inp = true)
    (hlim : |inp.relScore| > el) :
    (stepPlay el s inp).status = SessStatus.done ∧
    (stepPlay el s inp).resultVal =
      (if povWhite inp.turn inp.relScore > 0 then 1 else -1) ∧
    (stepPlay el s inp).positions = s.positions ∧
    (stepPlay el s inp).nsearches = s.nsearches + 1 ∧
    ∀ inps, runPlay el (stepPlay el s inp) inps = stepPlay el s inp := by
  have h1 : stepPlay el s inp =
      { s with nsearches := s.nsearches + 1,
               resultVal := if povWhite inp.turn inp.relScore > 0 then 1 else -1,
               status := SessStatus.done } := by
    simp [stepPlay, hs, hg, hsc, hq, hlim]
  rw [h1]
  refine ⟨rfl, rfl, rfl, rfl, ?_⟩
  intro inps
  exact runPlay_done el _ inps rfl

/-- A reported score of 20000 centipawns on a quiet ply. -/
def loudQuietInput : PlyInput :=
  { gameOver := false, hasScore := true, relScore := 20000, inCheck := false,
    isCapture := false, turn := true, fullmove := 30 }

/-- Witness for the amended C5 at a concrete quiet high-score ply. -/
theorem eval_limit_quiet_stops_witness :
    (stepPlay 19000 initGameState loudQuietInput).status = SessStatus.done ∧
    (stepPlay 19000 initGameState loudQuietInput).resultVal =
      (if povWhite loudQuietInput.turn loudQuietInput.relScore > 0
        then 1 else -1) ∧
    (stepPlay 19000 initGameState loudQuietInput).positions =
      initGameState.positions ∧
    (stepPlay 19000 initGameState loudQuietInput).nsearches =
      initGameState.nsearches + 1 ∧
    ∀ inps, runPlay 19000 (stepPlay 19000 initGameState loudQuietInput) inps =
      stepPlay 19000 initGameState loudQuietInput :=
  eval_limit_quiet_stops 19000 initGameState loudQuietInput rfl rfl rfl
    (by decide) (by decide)

/-- Ten consecutive quiet plies with mover-relative score +10000 (at the
resign threshold), at full-move numbers 196 through 200: the tenth
recorded ply has ply counter 401, just past MAX_PLY. -/
def resignBoundaryTrace : List PlyInput :=
  [⟨false, true, 10000, false, false, true, 196⟩,
   ⟨false, true, 10000, false, false, false, 196⟩,
   ⟨false, true, 10000, false, false, true, 197⟩,
   ⟨false, true, 10000, false, false, false, 197⟩,
   ⟨false, true, 10000, false, false, true, 198⟩,
   ⟨false, true, 10000, false, false, false, 198⟩,
   ⟨false, true, 10000, false, false, true, 199⟩,
   ⟨false, true, 10000, false, false, false, 199⟩,
   ⟨false, true, 10000, false, false, true, 200⟩,
   ⟨false, true, 10000, false, false, false, 200⟩]

/-- C6 counterexample: RESIGN_COUNT consecutive recorded plies, every score
at the resign threshold and positive, yet the session result is 0, not +1:
the MAX_PLY check runs before the resign check and adjudicates ply 401 as
a draw. -/
theorem resign_streak_ply_limit_breaks_claim :
    resignBoundaryTrace.length = RESIGN_COUNT ∧
    (resignBoundaryTrace.all (fun inp =>
      !inp.gameOver && inp.hasScore && is_quiet inp &&
      decide (RESIGN_SCORE ≤ |inp.relScore|) &&
      decide (0 < inp.relScore))) = true ∧
    (runPlay 19000 initGameState resignBoundaryTrace).positions.length =
      RESIGN_COUNT ∧
    (runPlay 19000 initGameState resignBoundaryTrace).status =
      SessStatus.done ∧
    (runPlay 19000 initGameState resignBoundaryTrace).resultVal ≠ 1 ∧
    (runPlay 19000 initGameState resignBoundaryTrace).resultVal = 0 := by
  decide

/-- The per-ply conditions of a resign streak of sign sgn: the ply is
reached (no game over), scored, quiet, within the eval limit (so it is
recorded), at or beyond the resign threshold, of the streak's sign, and at
a ply counter within MAX_PLY. -/
def resignStreakInput (el : Int) (sgn : Bool) (inp : PlyInput) : Prop :=
  inp.gameOver = false ∧ inp.hasScore = true ∧ is_quiet inp = true ∧
  |inp.relScore| ≤ el ∧ RESIGN_SCORE ≤ |inp.relScore| ∧
  ((sgn = true → 0 < inp.relScore) ∧ (sgn = false → inp.relScore < 0)) ∧
  plyOf inp ≤ MAX_PLY

instance (el : Int) (sgn : Bool) (inp : PlyInput) :
    Decidable (resignStreakInput el sgn inp) := by
  unfold resignStreakInput; infer_instance

/-- Core induction for resign adjudication: from a playing state whose
resign counter needs exactly the streak length to reach RESIGN_COUNT, a
qualifying streak finishes the session with the result of its sign. -/
theorem resign_streak_aux (el : Int) (sgn : Bool) :
    ∀ (L : List PlyInput) (s : GameState),
      s.status = SessStatus.playing →
      0 < L.length →
      s.resignCount + L.length = RESIGN_COUNT →
      (∀ inp ∈ L, resignStreakInput el sgn inp) →
      (runPlay el s L).status = SessStatus.done ∧
      (runPlay el s L).resultVal = (if sgn then 1 else -1)
  | [], s => by
      intro _ h0 _ _
      simp at h0
  | inp :: L, s => by
      intro hs hlen hcount hall
      obtain ⟨hg, hsc, hq, hle, hge, hsgn, hply⟩ := hall inp (by simp)
      have hlim : ¬(|inp.relScore| > el) := not_lt.mpr hle
      have hplyn : ¬(plyOf inp > MAX_PLY) := not_lt.mpr hply
      have hRS : (RESIGN_SCORE : Int) = 10000 := rfl
      have hDS : (DRAW_SCORE : Int) = 10 := rfl
      have hdr : ¬(|inp.relScore| ≤ DRAW_SCORE) := by
        rw [hDS]; rw [hRS] at hge; omega
      rw [runPlay_cons]
      cases L with
      | nil =>
          simp only [List.length_cons, List.length_nil] at hcount
          have hfin : RESIGN_COUNT ≤ s.resignCount + 1 := by omega
          have hstep : stepPlay el s inp =
              { s with nsearches := s.nsearches + 1,
                       positions := s.positions ++ [SRecord.mk inp (plyOf inp)],
                       resignCount := s.resignCount + 1,
                       resultVal := if 0 < inp.relScore then 1 else -1,
                       status := SessStatus.done } := by
            simp [stepPlay, hs, hg, hsc, hq, hlim, hplyn, hge, hfin]
          rw [show runPlay el (stepPlay el s inp) [] = stepPlay el s inp from rfl,
            hstep]
          refine ⟨rfl, ?_⟩
          rcases sgn with _ | _
          · have hneg : inp.relScore < 0 := hsgn.2 rfl
            simp [show ¬(0 < inp.relScore) from by omega]
          · simp [hsgn.1 rfl]
      | cons inp2 L2 =>
          simp only [List.length_cons] at hcount
          have hnfin : ¬(RESIGN_COUNT ≤ s.resignCount + 1) := by omega
          by_cases hmd : plyOf inp > MIN_DRAW_PLY
          · have hd0 : ¬(DRAW_COUNT ≤ 0) := by decide
            have hstep : stepPlay el s inp =
                { s with nsearches := s.nsearches + 1,
                         positions := s.positions ++ [SRecord.mk inp (plyOf inp)],
                         resignCount := s.resignCount + 1,
                         drawCount := 0 } := by
              simp [stepPlay, hs, hg, hsc, hq, hlim, hplyn, hge, hnfin, hmd,
                hdr, hd0]
            rw [hstep]
            refine resign_streak_aux el sgn (inp2 :: L2) _ ?_ (by simp) ?_
              (fun i hi => hall i (List.mem_cons_of_mem _ hi))
            · exact hs
            · simp only [List.length_cons]
              show s.resignCount + 1 + (L2.length + 1) = RESIGN_COUNT
              omega
          · have hstep : stepPlay el s inp =
                { s with nsearches := s.nsearches + 1,
                         positions := s.positions ++ [SRecord.mk inp (plyOf inp)],
                         resignCount := s.resignCount + 1 } := by
              simp [stepPlay, hs, hg, hsc, hq, hlim, hplyn, hge, hnfin, hmd]
            rw [hstep]
            refine resign_streak_aux el sgn (inp2 :: L2) _ ?_ (by simp) ?_
              (fun i hi => hall i (List.mem_cons_of_mem _ hi))
            · exact hs
            · simp only [List.length_cons]
              show s.resignCount + 1 + (L2.length + 1) = RESIGN_COUNT
              omega

/-- C6 amended: if the absolute reported score stays at or beyond
RESIGN_SCORE for RESIGN_COUNT consecutive recorded plies of the same sign,
and every such ply has a ply counter within MAX_PLY (the MAX_PLY check
runs first and otherwise adjudicates a draw), the session terminates with
the result of that sign: +1 for winning scores, -1 for losing scores. -/
theorem resign_adjudication (el : Int) (sgn : Bool) (L : List PlyInput)
    (s : GameState)
    (hs : s.status = SessStatus.playing)
    (hrc : s.resignCount = 0)
    (hlen : L.length = RESIGN_COUNT)
    (hall : ∀ inp ∈ L, resignStreakInput el sgn inp) :
    (runPlay el s L).status = SessStatus.done ∧
    (runPlay el s L).resultVal = (if sgn then 1 else -1) := by
  apply resign_streak_aux el sgn L s hs
  · rw [hlen]; decide
  · omega
  · exact hall

/-- Ten consecutive quiet plies with score +10000 at full moves 50-54. -/
def resignCleanTrace : List PlyInput :=
  [⟨false, true, 10000, false, false, true, 50⟩,
   ⟨false, true, 10000, false, false, false, 50⟩,
   ⟨false, true, 10000, false, false, true, 51⟩,
   ⟨false, true, 10000, false, false, false, 51⟩,
   ⟨false, true, 10000, false, false, true, 52⟩,
   ⟨false, true, 10000, false, false, false, 52⟩,
   ⟨false, true, 10000, false, false, true, 53⟩,
   ⟨false, true, 10000, false, false, false, 53⟩,
   ⟨false, true, 10000, false, false, true, 54⟩,
   ⟨false, true, 10000, false, false, false, 54⟩]

/-- Witness for the amended C6 on a concrete winning streak. -/
theorem resign_adjudication_witness :
    (runPlay 19000 initGameState resignCleanTrace).status = SessStatus.done ∧
    (runPlay 19000 initGameState resignCleanTrace).resultVal =
      (if true then 1 else -1) :=
  resign_adjudication 19000 true resignCleanTrace initGameState rfl rfl
    (by decide) (by decide)

/-- The per-ply conditions of a draw streak: the ply is reached, scored,
quiet, within the eval limit (so it is recorded), with absolute score at
or below DRAW_SCORE, and past MIN_DRAW_PLY. -/
def drawStreakInput (el : Int) (inp : PlyInput) : Prop :=
  inp.gameOver = false ∧ inp.hasScore = true ∧ is_quiet inp = true ∧
  |inp.relScore| ≤ el ∧ |inp.relScore| ≤ DRAW_SCORE ∧
  MIN_DRAW_PLY < plyOf inp

instance (el : Int) (inp : PlyInput) : Decidable (drawStreakInput el inp) := by
  unfold drawStreakInput; infer_instance

/-- Core induction for draw adjudication: from a playing state whose draw
counter needs exactly the streak length to reach DRAW_COUNT, a qualifying
streak finishes the session with result 0 (possibly earlier through the
MAX_PLY cutoff, which also yields 0). -/
theorem draw_streak_aux (el : Int) :
    ∀ (L : List PlyInput) (s : GameState),
      s.status = SessStatus.playing →
      0 < L.length →
      s.drawCount + L.length = DRAW_COUNT →
      (∀ inp ∈ L, drawStreakInput el inp) →
      (runPlay el s L).status = SessStatus.done ∧
      (runPlay el s L).resultVal = 0
  | [], s => by
      intro _ h0 _ _
      simp at h0
  | inp :: L, s => by
      intro hs hlen hcount hall
      obtain ⟨hg, hsc, hq, hle, hds, hmd⟩ := hall inp (by simp)
      have hlim : ¬(|inp.relScore| > el) := not_lt.mpr hle
      have hDS : (DRAW_SCORE : Int) = 10 := rfl
      have hRS : (RESIGN_SCORE : Int) = 10000 := rfl
      have hnr : ¬(RESIGN_SCORE ≤ |inp.relScore|) := by
        rw [hRS]; rw [hDS] at hds; omega
      have hr0 : ¬(RESIGN_COUNT ≤ 0) := by decide
      rw [runPlay_cons]
      by_cases hpm : plyOf inp > MAX_PLY
      · have hstep : stepPlay el s inp =
            { s with nsearches := s.nsearches + 1,
                     positions := s.positions ++ [SRecord.mk inp (plyOf inp)],
                     resultVal := 0,
                     status := SessStatus.done } := by
          simp [stepPlay, hs, hg, hsc, hq, hlim, hpm]
        rw [hstep, runPlay_done _ _ _ rfl]
        exact ⟨rfl, rfl⟩
      · cases L with
        | nil =>
            simp only [List.length_cons, List.length_nil] at hcount
            have hfin : DRAW_COUNT ≤ s.drawCount + 1 := by omega
            have hstep : stepPlay el s inp =
                { s with nsearches := s.nsearches + 1,
                         positions := s.positions ++ [SRecord.mk inp (plyOf inp)],
                         resignCount := 0,
                         drawCount := s.drawCount + 1,
                         resultVal := 0,
                         status := SessStatus.done } := by
              simp [stepPlay, hs, hg, hsc, hq, hlim, hpm, hnr, hr0, hmd, hds,
                hfin]
            rw [show runPlay el (stepPlay el s inp) [] = stepPlay el s inp
              from rfl, hstep]
            exact ⟨rfl, rfl⟩
        | cons inp2 L2 =>
            simp only [List.length_cons] at hcount
            have hnfin : ¬(DRAW_COUNT ≤ s.drawCount + 1) := by omega
            have hstep : stepPlay el s inp =
                { s with nsearches := s.nsearches + 1,
                         positions := s.positions ++ [SRecord.mk inp (plyOf inp)],
                         resignCount := 0,
                         drawCount := s.drawCount + 1 } := by
              simp [stepPlay, hs, hg, hsc, hq, hlim, hpm, hnr, hr0, hmd, hds,
                hnfin]
            rw [hstep]
            refine draw_streak_aux el (inp2 :: L2) _ ?_ (by simp) ?_
              (fun i hi => hall i (List.mem_cons_of_mem _ hi))
            · exact hs
            · simp only [List.length_cons]
              show s.drawCount + 1 + (L2.length + 1) = DRAW_COUNT
              omega

/-- C7: once past MIN_DRAW_PLY, DRAW_COUNT consecutive recorded plies with
absolute score at or below DRAW_SCORE terminate the session with result 0,
and the session never continues past the DRAW_COUNT-th qualifying ply. -/
theorem draw_adjudication (el : Int) (L : List PlyInput) (s : GameState)
    (hs : s.status = SessStatus.playing)
    (hdc : s.drawCount = 0)
    (hlen : L.length = DRAW_COUNT)
    (hall : ∀ inp ∈ L, drawStreakInput el inp) :
    (runPlay el s L).status = SessStatus.done ∧
    (runPlay el s L).resultVal = 0 ∧
    ∀ M, runPlay el s (L ++ M) = runPlay el s L := by
  obtain ⟨h1, h2⟩ := draw_streak_aux el L s hs (by rw [hlen]; decide) (by omega)
    hall
  refine ⟨h1, h2, ?_⟩
  intro M
  have h3 : runPlay el s (L ++ M) = runPlay el (runPlay el s L) M := by
    simp [runPlay, List.foldl_append]
  rw [h3, runPlay_done _ _ _ h1]

/-- Ten consecutive quiet plies with score +5 at full moves 45-49, plies
90 through 99, past MIN_DRAW_PLY. -/
def drawCleanTrace : List PlyInput :=
  [⟨false, true, 5, false, false, true, 45⟩,
   ⟨false, true, 5, false, false, false, 45⟩,
   ⟨false, true, 5, false, false, true, 46⟩,
   ⟨false, true, 5, false, false, false, 46⟩,
   ⟨false, true, 5, false, false, true, 47⟩,
   ⟨false, true, 5, false, false, false, 47⟩,
   ⟨false, true, 5, false, false, true, 48⟩,
   ⟨false, true, 5, false, false, false, 48⟩,
   ⟨false, true, 5, false, false, true, 49⟩,
   ⟨false, true, 5, false, false, false, 49⟩]

/-- Witness for C7 on a concrete near-zero streak. -/
theorem draw_adjudication_witness :
    (runPlay 19000 initGameState drawCleanTrace).status = SessStatus.done ∧
    (runPlay 19000 initGameState drawCleanTrace).resultVal = 0 ∧
    ∀ M, runPlay 19000 initGameState (drawCleanTrace ++ M) =
      runPlay 19000 initGameState drawCleanTrace :=
  draw_adjudication 19000 drawCleanTrace initGameState rfl rfl (by decide)
    (by decide)

/-- On a recorded ply (playing, reachable, scored, quiet, within the eval
limit) the step appends exactly one record carrying the computed ply
counter, whichever adjudication branch follows. -/
theorem stepPlay_record_positions (el : Int) (s : GameState) (inp : PlyInput)
    (hs : s.status = SessStatus.playing)
    (hg : inp.gameOver = false)
    (hsc : inp.hasScore = true)
    (hq : is_quiet inp = true)
    (hlim : ¬(|inp.relScore| > el)) :
    (stepPlay el s inp).positions =
      s.positions ++ [SRecord.mk inp (plyOf inp)] := by
  simp only [stepPlay]
  rw [if_neg (by simp [hs]), if_neg (by simp [hg]), if_neg (by simp [hsc]),
    if_neg (by simp [hq]), if_neg hlim]
  repeat' split
  all_goals rfl

/-- Every step either leaves the buffer unchanged or appends one record of
a quiet ply. -/
theorem stepPlay_appends (el : Int) (s : GameState) (inp : PlyInput) :
    (stepPlay el s inp).positions = s.positions ∨
    (is_quiet inp = true ∧
      (stepPlay el s inp).positions =
        s.positions ++ [SRecord.mk inp (plyOf inp)]) := by
  by_cases hdone : s.status = SessStatus.done
  · left; rw [stepPlay_done el s inp hdone]
  · have hs : s.status = SessStatus.playing := by
      cases h : s.status
      · rfl
      · exact absurd h hdone
    rcases hg : inp.gameOver with _ | _
    · rcases hsc : inp.hasScore with _ | _
      · left; simp [stepPlay, hs, hg, hsc]
      · rcases hq : is_quiet inp with _ | _
        · left; simp [stepPlay, hs, hg, hsc, hq]
        · by_cases hlim : |inp.relScore| > el
          · left; simp [stepPlay, hs, hg, hsc, hq, hlim]
          · right
            exact ⟨rfl, stepPlay_record_positions el s inp hs hg hsc hq hlim⟩
    · left; simp [stepPlay, hs, hg]

/-- Auxiliary invariant for the quiet filter: a run only ever adds records
of plies where the mover was not in check and the move was not a capture. -/
theorem quiet_filter_aux (el : Int) (inps : List PlyInput) :
    ∀ s : GameState,
      (∀ r ∈ s.positions,
        r.input.inCheck = false ∧ r.input.isCapture = false) →
      ∀ r ∈ (runPlay el s inps).positions,
        r.input.inCheck = false ∧ r.input.isCapture = false := by
  induction inps with
  | nil => intro s h; exact h
  | cons i l ih =>
      intro s h
      rw [runPlay_cons]
      apply ih
      rcases stepPlay_appends el s i with h1 | ⟨hq, h1⟩
      · rw [h1]; exact h
      · rw [h1]
        intro r hr
        rcases List.mem_append.mp hr with hr | hr
        · exact h r hr
        · have heq : r = SRecord.mk i (plyOf i) := by
            simpa using hr
          subst heq
          have hq2 := hq
          unfold is_quiet at hq2
          rcases hC : i.inCheck with _ | _
          · rw [hC] at hq2
            simp at hq2
            exact ⟨rfl, hq2⟩
          · rw [hC] at hq2
            simp at hq2

/-- C8: at every point of a game session, every buffered PositionRecord is
quiet: the mover was not in check and the chosen move was not a capture.
Plies in check or with capture moves are never recorded. -/
theorem quiet_filter_invariant (el : Int) (inps : List PlyInput)
    (r : SRecord) (hr : r ∈ (runPlay el initGameState inps).positions) :
    r.input.inCheck = false ∧ r.input.isCapture = false :=
  quiet_filter_aux el inps initGameState (by intro r hr; simp [initGameState] at hr) r hr

/-- A concrete quiet scored ply at full move 1, white to move. -/
def firstQuietInput : PlyInput :=
  { gameOver := false, hasScore := true, relScore := 25, inCheck := false,
    isCapture := false, turn := true, fullmove := 1 }

/-- Witness for C8: the record produced by one recorded ply is quiet. -/
theorem quiet_filter_invariant_witness :
    (SRecord.mk firstQuietInput 2).input.inCheck = false ∧
    (SRecord.mk firstQuietInput 2).input.isCapture = false :=
  quiet_filter_invariant 19000 [firstQuietInput] (SRecord.mk firstQuietInput 2)
    (by decide)

/-- C10: a recorded ply stores 2 times the full-move number when white is
to move and 2 times the full-move number plus 1 when black is to move;
with full-move numbers starting at 1 the stored ply is at least 2 and is
never 0 or 1, so it is not a 0-based ply index from the start of the
game (the standard start records ply 2 first). -/
theorem ply_field (el : Int) (s : GameState) (inp : PlyInput)
    (hs : s.status = SessStatus.playing)
    (hg : inp.gameOver = false)
    (hsc : inp.hasScore = true)
    (hq : is_quiet inp = true)
    (hlim : ¬(|inp.relScore| > el))
    (hfm : 1 ≤ inp.fullmove) :
    (stepPlay el s inp).positions =
      s.positions ++ [SRecord.mk inp
        (if inp.turn then inp.fullmove * 2 else inp.fullmove * 2 + 1)] ∧
    2 ≤ plyOf inp ∧ plyOf inp ≠ 0 ∧ plyOf inp ≠ 1 := by
  refine ⟨?_, ?_, ?_, ?_⟩
  · rw [stepPlay_record_positions el s inp hs hg hsc hq hlim]
    rfl
  · unfold plyOf; split <;> omega
  · unfold plyOf; split <;> omega
  · unfold plyOf; split <;> omega

/-- Witness for C10 at the first recordable ply of a standard game. -/
theorem ply_field_witness :
    (stepPlay 19000 initGameState firstQuietInput).positions =
      initGameState.positions ++ [SRecord.mk firstQuietInput
        (if firstQuietInput.turn then firstQuietInput.fullmove * 2
         else firstQuietInput.fullmove * 2 + 1)] ∧
    2 ≤ plyOf firstQuietInput ∧ plyOf firstQuietInput ≠ 0 ∧
    plyOf firstQuietInput ≠ 1 :=
  ply_field 19000 initGameState firstQuietInput rfl rfl rfl (by decide)
    (by decide) (by decide)

/-- The flush loop at the end of play_game: for sfen in positions, write
the record with the mover-relative result, decrement pos_left and stop as
soon as it reaches exactly 0.  Returns the written records (paired with
their stored pov result) and the final pos_left.  pos_left is an int in
the source. -/
def flushPositions (positions : List SRecord) (result_val : Int)
    (pos_left : Int) : List (SRecord × Int) × Int :=
  match positions with
  | [] => ([], pos_left)
  | sfen :: rest =>
      let out := (sfen, povResult sfen.input.turn result_val)
      let pl := pos_left - 1
      if pl = 0 then ([out], pl)
      else
        let r := flushPositions rest result_val pl
        (out :: r.1, r.2)

/-- C9: when a session leaves its playing loop with at least one position
of quota left, the buffered records are written in buffer order, each with
the same terminal result converted to the mover's sign (negated when black
was the mover), but only up to the remaining quota: exactly
min(buffered, quota) records are written, the returned quota is the old
quota minus that, and when the buffer holds at least the quota the extra
records are discarded and the returned quota is exactly zero. -/
theorem flush_writes_up_to_quota (res : Int) :
    ∀ (P : List SRecord) (pl : Int), 1 ≤ pl →
      (flushPositions P res pl).1 =
        (P.take (min P.length pl.toNat)).map
          (fun r => (r, povResult r.input.turn res)) ∧
      (flushPositions P res pl).2 = pl - (min P.length pl.toNat : Int) ∧
      (pl ≤ (P.length : Int) → (flushPositions P res pl).2 = 0)
  | [], pl => by
      intro hpl
      refine ⟨by simp [flushPositions], by simp [flushPositions], ?_⟩
      intro h
      simp at h
      omega
  | sfen :: rest, pl => by
      intro hpl
      by_cases h1 : pl - 1 = 0
      · have hpl1 : pl = 1 := by omega
        subst hpl1
        have hm : min (sfen :: rest).length (Int.toNat 1) = 1 := by
          simp only [List.length_cons]
          omega
        refine ⟨?_, ?_, ?_⟩
        · rw [hm]
          simp [flushPositions]
        · have h2 : (flushPositions (sfen :: rest) res 1).2 = 0 := by
            simp [flushPositions]
          rw [h2]
          simp only [List.length_cons]
          push_cast
          omega
        · intro _
          simp [flushPositions]
      · have hpl2 : 2 ≤ pl := by omega
        obtain ⟨ih1, ih2, ih3⟩ :=
          flush_writes_up_to_quota res rest (pl - 1) (by omega)
        have hmin : min (sfen :: rest).length pl.toNat =
            min rest.length (pl - 1).toNat + 1 := by
          simp only [List.length_cons]
          omega
        have hflush : flushPositions (sfen :: rest) res pl =
            ((sfen, povResult sfen.input.turn res) ::
              (flushPositions rest res (pl - 1)).1,
             (flushPositions rest res (pl - 1)).2) := by
          simp only [flushPositions]
          rw [if_neg h1]
        refine ⟨?_, ?_, ?_⟩
        · rw [hflush]
          show (sfen, povResult sfen.input.turn res) ::
              (flushPositions rest res (pl - 1)).1 = _
          rw [ih1, hmin, List.take_succ_cons, List.map_cons]
        · rw [hflush]
          show (flushPositions rest res (pl - 1)).2 = _
          rw [ih2]
          simp only [List.length_cons]
          push_cast
          omega
        · intro h
          rw [hflush]
          show (flushPositions rest res (pl - 1)).2 = 0
          apply ih3
          simp only [List.length_cons] at h
          push_cast at h ⊢
          omega

/-- A concrete quiet scored ply with black to move. -/
def blackQuietInput : PlyInput :=
  { gameOver := false, hasScore := true, relScore := -30, inCheck := false,
    isCapture := false, turn := false, fullmove := 1 }

/-- Three buffered records, the second with black as mover. -/
def flushDemoRecords : List SRecord :=
  [SRecord.mk firstQuietInput 2, SRecord.mk blackQuietInput 3,
   SRecord.mk firstQuietInput 4]

/-- Witness for C9: three buffered records against a quota of 2. -/
theorem flush_writes_up_to_quota_witness :
    (flushPositions flushDemoRecords 1 2).1 =
      (flushDemoRecords.take (min flushDemoRecords.length (2 : Int).toNat)).map
        (fun r => (r, povResult r.input.turn 1)) ∧
    (flushPositions flushDemoRecords 1 2).2 =
      2 - (min flushDemoRecords.length (2 : Int).toNat : Int) ∧
    ((2 : Int) ≤ (flushDemoRecords.length : Int) →
      (flushPositions flushDemoRecords 1 2).2 = 0) :=
  flush_writes_up_to_quota 1 flushDemoRecords 2 (by norm_num)

/-- The k low bits of a value, least significant first. -/
def natBits (v : Nat) : Nat → List Bool
  | 0 => []
  | k + 1 => decide (v % 2 = 1) :: natBits (v / 2) k

/-- The value of a bit list, least significant bit first. -/
def natOfBits : List Bool → Nat
  | [] => 0
  | b :: bs => (if b then 1 else 0) + 2 * natOfBits bs

theorem natBits_length (v k : Nat) : (natBits v k).length = k := by
  induction k generalizing v with
  | zero => rfl
  | succ k ih => simp [natBits, ih]

theorem natOfBits_append (l1 l2 : List Bool) :
    natOfBits (l1 ++ l2) = natOfBits l1 + 2 ^ l1.length * natOfBits l2 := by
  induction l1 with
  | nil => simp [natOfBits]
  | cons b bs ih =>
      simp only [List.cons_append, natOfBits, List.append_eq, ih,
        List.length_cons, Nat.pow_succ]
      ring

theorem natOfBits_lt (l : List Bool) : natOfBits l < 2 ^ l.length := by
  induction l with
  | nil => simp [natOfBits]
  | cons b bs ih =>
      simp only [natOfBits, List.length_cons, Nat.pow_succ]
      rcases b with _ | _ <;> simp <;> omega

theorem natOfBits_natBits (k : Nat) :
    ∀ v : Nat, natOfBits (natBits v k) = v % 2 ^ k := by
  induction k with
  | zero => intro v; simp [natBits, natOfBits, Nat.mod_one]
  | succ k ih =>
      intro v
      simp only [natBits, natOfBits, ih]
      have h1 : v % (2 * 2 ^ k) = v % 2 + 2 * (v / 2 % 2 ^ k) := Nat.mod_mul
      have h2 : (2 : Nat) ^ (k + 1) = 2 * 2 ^ k := by rw [Nat.pow_succ]; ring
      rw [h2, h1]
      rcases Nat.mod_two_eq_zero_or_one v with h | h <;> simp [h]

/-- Writing below bit p cannot collide with a value already below 2 to p. -/
theorem chunk_bound {d w p k : Nat} (hd : d < 2 ^ p) (hw : w < 2 ^ k) :
    d + w * 2 ^ p < 2 ^ (p + k) := by
  have h1 : d + w * 2 ^ p < (w + 1) * 2 ^ p := by
    have := Nat.pos_pow_of_pos p (show 0 < 2 from by norm_num)
    nlinarith
  have h2 : (w + 1) * 2 ^ p ≤ 2 ^ k * 2 ^ p := by
    exact Nat.mul_le_mul_right _ (by omega)
  calc d + w * 2 ^ p < 2 ^ k * 2 ^ p := lt_of_lt_of_le h1 h2
    _ = 2 ^ (p + k) := by rw [Nat.pow_add]; ring

/-- Closed form of encode_bit on a buffer that is still clear at and above
position p. -/
theorem encode_bit_eq {d p : Nat} (v : Nat) (hd : d < 2 ^ p) :
    encode_bit d p v =
      (d + (if v % 65536 ≠ 0 then 1 else 0) * 2 ^ p, p + 1) := by
  unfold encode_bit
  split
  · rw [Nat.one_shiftLeft,
      show (1 : Nat) * 2 ^ p = 2 ^ p from Nat.one_mul _,
      ← Nat.one_mul (2 ^ p), lor_mul_two_pow_eq_add hd]
  · simp

/-- Closed form of encode_bits: writing the k low bits of v at position p
adds (v mod 2^k) * 2^p and advances the position by k. -/
theorem encode_bits_eq (k : Nat) :
    ∀ d p v : Nat, d < 2 ^ p → v < 65536 →
      encode_bits d p v k = (d + (v % 2 ^ k) * 2 ^ p, p + k) := by
  induction k with
  | zero =>
      intro d p v hd hv
      simp [encode_bits, Nat.mod_one]
  | succ k ih =>
      intro d p v hd hv
      have hstep : encode_bits d p v (k + 1) =
          encode_bit (encode_bits d p v k).1 (encode_bits d p v k).2
            (v &&& (1 <<< k)) := by
        unfold encode_bits
        rw [List.range_succ, List.foldl_append, List.foldl_cons, List.foldl_nil]
      rw [hstep, ih d p v hd hv]
      have hmask : v &&& (1 <<< k) = (v.testBit k).toNat * 2 ^ k := by
        rw [Nat.one_shiftLeft, Nat.and_two_pow]
      have hdk : d + (v % 2 ^ k) * 2 ^ p < 2 ^ (p + k) :=
        chunk_bound hd (Nat.mod_lt _ (Nat.pos_pow_of_pos k (by norm_num)))
      rw [encode_bit_eq _ hdk]
      have hsplit : v % 2 ^ (k + 1) = v % 2 ^ k + (v.testBit k).toNat * 2 ^ k := by
    
      
        have h1 : v % (2 ^ k * 2) = v % 2 ^ k + 2 ^ k * (v / 2 ^ k % 2) :=
          Nat.mod_mul
        rw [Nat.pow_succ, h1, Nat.testBit_to_div_mod]
        rcases Nat.mod_two_eq_zero_or_one (v / 2 ^ k) with h | h <;> simp [h]
      have hback : (if (v.testBit k).toNat * 2 ^ k % 65536 ≠ 0 then 1 else 0) =
          (v.testBit k).toNat := by
        have hle : (v.testBit k).toNat * 2 ^ k ≤ v := by
          rw [← Nat.and_two_pow, ← Nat.one_shiftLeft]
          exact Nat.and_le_left
        have hlt : (v.testBit k).toNat * 2 ^ k < 65536 := lt_of_le_of_lt hle hv
        rw [Nat.mod_eq_of_lt hlt]
        rcases v.testBit k with _ | _ <;> simp
      rw [hmask, hback, hsplit]
      refine Prod.ext ?_ ?_
      · show d + (v % 2 ^ k) * 2 ^ p + (v.testBit k).toNat * 2 ^ (p + k) =
          d + (v % 2 ^ k + (v.testBit k).toNat * 2 ^ k) * 2 ^ p
        rw [Nat.pow_add]
        ring
      · show p + k + 1 = p + (k + 1)
        omega

/-- Sequential bitstream writing of a list of (value, width) chunks. -/
def writeChunks (dp : Nat × Nat) : List (Nat × Nat) → Nat × Nat
  | [] => dp
  | c :: cs => writeChunks (encode_bits dp.1 dp.2 c.1 c.2) cs

/-- The bit image of a chunk list: each value contributes its low bits. -/
def chunkBits : List (Nat × Nat) → List Bool
  | [] => []
  | c :: cs => natBits c.1 c.2 ++ chunkBits cs

theorem writeChunks_append (c1 c2 : List (Nat × Nat)) :
    ∀ dp : Nat × Nat,
      writeChunks dp (c1 ++ c2) = writeChunks (writeChunks dp c1) c2 := by
  induction c1 with
  | nil => intro dp; rfl
  | cons c cs ih => intro dp; exact ih _

theorem chunkBits_append (c1 c2 : List (Nat × Nat)) :
    chunkBits (c1 ++ c2) = chunkBits c1 ++ chunkBits c2 := by
  induction c1 with
  | nil => rfl
  | cons c cs ih => simp [chunkBits, ih]

/-- A one-bit chunk written with encode_bits is an encode_bit call. -/
theorem encode_bits_one (d p v : Nat) (hv : v < 2) :
    encode_bits d p v 1 = encode_bit d p v := by
  unfold encode_bits
  rw [show List.range 1 = [0] from rfl, List.foldl_cons, List.foldl_nil]
  have h : v &&& (1 <<< 0) = v := by
    rw [Nat.one_shiftLeft, Nat.pow_zero, Nat.and_one_is_mod, Nat.mod_eq_of_lt hv]
  rw [h]

/-- Writing a chunk list over a clear buffer produces exactly the value of
its bit image at the starting position. -/
theorem writeChunks_eq (cs : List (Nat × Nat)) :
    ∀ d p : Nat, d < 2 ^ p → (∀ c ∈ cs, c.1 < 65536) →
      writeChunks (d, p) cs =
        (d + natOfBits (chunkBits cs) * 2 ^ p, p + (chunkBits cs).length) := by
  induction cs with
  | nil =>
      intro d p hd _
      simp [writeChunks, chunkBits, natOfBits]
  | cons c cs ih =>
      intro d p hd hv
      have hc : c.1 < 65536 := hv c (by simp)
      have hstep : writeChunks (d, p) (c :: cs) =
          writeChunks (encode_bits d p c.1 c.2) cs := rfl
      rw [hstep, encode_bits_eq c.2 d p c.1 hd hc]
      have hd2 : d + c.1 % 2 ^ c.2 * 2 ^ p < 2 ^ (p + c.2) :=
        chunk_bound hd (Nat.mod_lt _ (Nat.pos_pow_of_pos c.2 (by norm_num)))
      rw [ih _ _ hd2 (fun x hx => hv x (by simp [hx]))]
      have hbits : chunkBits (c :: cs) = natBits c.1 c.2 ++ chunkBits cs := rfl
      rw [hbits, natOfBits_append, natOfBits_natBits, natBits_length,
        List.length_append, natBits_length]
      refine Prod.ext ?_ ?_
      · show d + c.1 % 2 ^ c.2 * 2 ^ p + natOfBits (chunkBits cs) * 2 ^ (p + c.2) =
          d + (c.1 % 2 ^ c.2 + 2 ^ c.2 * natOfBits (chunkBits cs)) * 2 ^ p
        rw [Nat.pow_add]
        ring
      · show p + c.2 + (chunkBits cs).length = p + (c.2 + (chunkBits cs).length)
        omega

/-- The chunks written by encode_piece_at for one square. -/
def squareChunks (b : Board) (sq : Nat) : List (Nat × Nat) :=
  match b.pieceTypeAt sq with
  | none => [(HUFFMAN_TABLE.getD 0 0 % 65536, 1)]
  | some pt => [(HUFFMAN_TABLE.getD pt 0 % 65536, 4),
                ((if b.colorAt sq then 0 else 1), 1)]

/-- The full chunk sequence written by encode_position. -/
def posChunks (b : Board) : List (Nat × Nat) :=
  [((if b.turn then 0 else 1), 1), (b.wk % 65536, 6), (b.bk % 65536, 6)]
  ++ ((squaresA8H1.filter
        (fun sq => decide (b.pieceTypeAt sq ≠ some KING))).flatMap
          (squareChunks b))
  ++ [((if b.castleWK then 1 else 0), 1), ((if b.castleWQ then 1 else 0), 1),
      ((if b.castleBK then 1 else 0), 1), ((if b.castleBQ then 1 else 0), 1)]
  ++ (match b.ep with
      | none => [(0, 1)]
      | some sq => if sq = 0 then [(0, 1)] else [(1, 1), (sq % 65536, 6)])
  ++ [(b.halfmove % 65536, 6), (b.fullmove % 65536, 8),
      ((b.fullmove >>> 8) % 65536, 8), (((b.halfmove >>> 6) &&& 1), 1)]

/-- encode_piece_at is the chunk write of its square. -/
theorem encode_piece_at_eq_chunks (b : Board) (sq : Nat) (dp : Nat × Nat) :
    encode_piece_at dp.1 dp.2 b sq = writeChunks dp (squareChunks b sq) := by
  unfold encode_piece_at squareChunks
  rcases h : b.pieceTypeAt sq with _ | pt
  · rfl
  · show encode_bit (encode_bits dp.1 dp.2 _ 4).1 (encode_bits dp.1 dp.2 _ 4).2
        (if b.colorAt sq then 0 else 1) =
      writeChunks (encode_bits (encode_bits dp.1 dp.2 _ 4).1
        (encode_bits dp.1 dp.2 _ 4).2 (if b.colorAt sq then 0 else 1) 1) []
    rw [show ∀ x : Nat × Nat, writeChunks x [] = x from fun x => rfl,
      encode_bits_one _ _ _ (by rcases b.colorAt sq <;> norm_num)]

/-- The square loop of encode_position writes the chunk sequence of the
non-king squares in visit order. -/
theorem squares_fold_eq (b : Board) :
    ∀ (sqs : List Nat) (dp : Nat × Nat),
      sqs.foldl (fun dp sq =>
        match b.pieceTypeAt sq with
        | some pt => if pt = KING then dp else encode_piece_at dp.1 dp.2 b sq
        | none => encode_piece_at dp.1 dp.2 b sq) dp
      = writeChunks dp
          ((sqs.filter (fun sq => decide (b.pieceTypeAt sq ≠ some KING))).flatMap
            (squareChunks b)) := by
  intro sqs
  induction sqs with
  | nil => intro dp; rfl
  | cons sq sqs ih =>
      intro dp
      have hstep : (fun dp sq =>
          match b.pieceTypeAt sq with
          | some pt => if pt = KING then dp else encode_piece_at dp.1 dp.2 b sq
          | none => encode_piece_at dp.1 dp.2 b sq) dp sq
          = (if decide (b.pieceTypeAt sq ≠ some KING) = true
             then writeChunks dp (squareChunks b sq) else dp) := by
        show (match b.pieceTypeAt sq with
            | some pt => if pt = KING then dp else encode_piece_at dp.1 dp.2 b sq
            | none => encode_piece_at dp.1 dp.2 b sq)
          = (if decide (b.pieceTypeAt sq ≠ some KING) = true
             then writeChunks dp (squareChunks b sq) else dp)
        rcases h : b.pieceTypeAt sq with _ | pt
        · show encode_piece_at dp.1 dp.2 b sq = _
          rw [if_pos (by decide)]
          exact encode_piece_at_eq_chunks b sq dp
        · by_cases hk : pt = KING
          · subst hk
            show (if KING = KING then dp else encode_piece_at dp.1 dp.2 b sq) = _
            rw [if_pos rfl, if_neg (by decide)]
          · show (if pt = KING then dp else encode_piece_at dp.1 dp.2 b sq) = _
            rw [if_neg hk, if_pos (by simp [hk])]
            exact encode_piece_at_eq_chunks b sq dp
      rw [List.foldl_cons, List.filter_cons]
      simp only [hstep]
      by_cases hkeep : decide (b.pieceTypeAt sq ≠ some KING) = true
      · rw [if_pos hkeep, if_pos hkeep, List.flatMap_cons, writeChunks_append]
        exact ih _
      · rw [if_neg hkeep, if_neg hkeep]
        exact ih dp

/-- encode_position is exactly the chunk write of posChunks over a clear
buffer. -/
theorem encode_position_eq_writeChunks (b : Board) :
    encode_position b = (writeChunks (0, 0) (posChunks b)).1 := by
  have hvt : (if b.turn then (0 : Nat) else 1) < 2 := by
    rcases b.turn with _ | _ <;> norm_num
  have hv2 : ∀ c : Bool, (if c then (1 : Nat) else 0) < 2 := by
    intro c; rcases c with _ | _ <;> norm_num
  have hva : ((b.halfmove >>> 6) &&& 1) < 2 := by
    have h := Nat.and_le_right (n := b.halfmove >>> 6) (m := 1)
    omega
  rcases hep : b.ep with _ | sq
  · simp only [encode_position, posChunks, hep]
    rw [squares_fold_eq]
    rw [← encode_bits_one _ _ _ hvt,
      ← encode_bits_one _ _ _ (hv2 b.castleWK),
      ← encode_bits_one _ _ _ (hv2 b.castleWQ),
      ← encode_bits_one _ _ _ (hv2 b.castleBK),
      ← encode_bits_one _ _ _ (hv2 b.castleBQ),
      ← encode_bits_one _ _ _ hva,
      ← encode_bits_one _ _ _ (show (0 : Nat) < 2 from by norm_num)]
    simp only [writeChunks_append, writeChunks, List.append_eq, List.nil_append]
  · by_cases hsq0 : sq = 0
    · simp only [encode_position, posChunks, hep, if_pos hsq0]
      rw [squares_fold_eq]
      rw [← encode_bits_one _ _ _ hvt,
        ← encode_bits_one _ _ _ (hv2 b.castleWK),
        ← encode_bits_one _ _ _ (hv2 b.castleWQ),
        ← encode_bits_one _ _ _ (hv2 b.castleBK),
        ← encode_bits_one _ _ _ (hv2 b.castleBQ),
        ← encode_bits_one _ _ _ hva,
        ← encode_bits_one _ _ _ (show (0 : Nat) < 2 from by norm_num)]
      simp only [writeChunks_append, writeChunks, List.append_eq, List.nil_append]
    · simp only [encode_position, posChunks, hep, if_neg hsq0]
      rw [squares_fold_eq]
      rw [← encode_bits_one _ _ _ hvt,
        ← encode_bits_one _ _ _ (hv2 b.castleWK),
        ← encode_bits_one _ _ _ (hv2 b.castleWQ),
        ← encode_bits_one _ _ _ (hv2 b.castleBK),
        ← encode_bits_one _ _ _ (hv2 b.castleBQ),
        ← encode_bits_one _ _ _ hva,
        ← encode_bits_one _ _ _ (show (1 : Nat) < 2 from by norm_num)]
      simp only [writeChunks_append, writeChunks, List.append_eq, List.nil_append]

/-- Modelled from the spec table: piece codes pawn=1, knight=3, bishop=5,
rook=7, queen=9 (python-chess piece types 1-5). -/
def specPieceCode : Nat → Nat
  | 1 => 1
  | 2 => 3
  | 3 => 5
  | 4 => 7
  | 5 => 9
  | _ => 0

/-- Modelled from the spec table: one 0 bit for an empty square, else the
4-bit piece code followed by one color bit (set for black). -/
def specSquareBits (b : Board) (sq : Nat) : List Bool :=
  match b.pieceTypeAt sq with
  | none => [false]
  | some pt => natBits (specPieceCode pt) 4 ++ [decide (b.colorAt sq = false)]

/-- Modelled from the spec table: the documented bit layout of the 32-byte
position block, as a flat bit list: side to move (0 for white), two 6-bit
king squares, the per-square codes of the non-king squares in a8-h1 order,
four castling bits, the en-passant presence bit with a 6-bit square when
set, the low 6 bits of the half-move clock, the low then high 8 bits of the
full-move number, and the half-move-clock high bit. -/
def specBits (b : Board) : List Bool :=
  [decide (b.turn = false)]
  ++ natBits b.wk 6 ++ natBits b.bk 6
  ++ ((squaresA8H1.filter
        (fun sq => decide (b.pieceTypeAt sq ≠ some KING))).flatMap
          (specSquareBits b))
  ++ [b.castleWK, b.castleWQ, b.castleBK, b.castleBQ]
  ++ (match b.ep with
      | none => [false]
      | some sq => true :: natBits sq 6)
  ++ natBits b.halfmove 6
  ++ natBits b.fullmove 8
  ++ natBits (b.fullmove >>> 8) 8
  ++ [b.halfmove.testBit 6]

/-- The chunk bits of one occupied or empty square equal its spec bits. -/
theorem chunkBits_squareChunks (b : Board) (sq : Nat)
    (hpt : ∀ pt, b.pieceTypeAt sq = some pt → 1 ≤ pt ∧ pt ≤ 6)
    (hk : b.pieceTypeAt sq ≠ some KING) :
    chunkBits (squareChunks b sq) = specSquareBits b sq := by
  unfold squareChunks specSquareBits
  rcases h : b.pieceTypeAt sq with _ | pt
  · rfl
  · obtain ⟨h1, h6⟩ := hpt pt h
    rw [h] at hk
    have hpk : pt ≠ 6 := by
      intro he
      exact hk (by rw [he]; rfl)
    interval_cases pt
    · rcases hc : b.colorAt sq with _ | _ <;>
        simp [chunkBits, natBits, specPieceCode, HUFFMAN_TABLE, hc]
    · rcases hc : b.colorAt sq with _ | _ <;>
        simp [chunkBits, natBits, specPieceCode, HUFFMAN_TABLE, hc]
    · rcases hc : b.colorAt sq with _ | _ <;>
        simp [chunkBits, natBits, specPieceCode, HUFFMAN_TABLE, hc]
    · rcases hc : b.colorAt sq with _ | _ <;>
        simp [chunkBits, natBits, specPieceCode, HUFFMAN_TABLE, hc]
    · rcases hc : b.colorAt sq with _ | _ <;>
        simp [chunkBits, natBits, specPieceCode, HUFFMAN_TABLE, hc]
    · exact absurd rfl hpk

/-- The chunk bits of the non-king squares equal their spec bits. -/
theorem chunkBits_flatMap_squares (b : Board)
    (hpt : ∀ sq ∈ squaresA8H1, ∀ pt, b.pieceTypeAt sq = some pt →
      1 ≤ pt ∧ pt ≤ 6) :
    chunkBits ((squaresA8H1.filter
        (fun sq => decide (b.pieceTypeAt sq ≠ some KING))).flatMap
          (squareChunks b))
      = (squaresA8H1.filter
          (fun sq => decide (b.pieceTypeAt sq ≠ some KING))).flatMap
            (specSquareBits b) := by
  suffices h : ∀ sqs : List Nat,
      (∀ sq ∈ sqs, ∀ pt, b.pieceTypeAt sq = some pt → 1 ≤ pt ∧ pt ≤ 6) →
      chunkBits ((sqs.filter
          (fun sq => decide (b.pieceTypeAt sq ≠ some KING))).flatMap
            (squareChunks b))
        = (sqs.filter
            (fun sq => decide (b.pieceTypeAt sq ≠ some KING))).flatMap
              (specSquareBits b) from h _ hpt
  intro sqs
  induction sqs with
  | nil => intro _; rfl
  | cons sq sqs ih =>
      intro hall
      rw [List.filter_cons]
      by_cases hkeep : decide (b.pieceTypeAt sq ≠ some KING) = true
      · rw [if_pos hkeep, List.flatMap_cons, List.flatMap_cons, chunkBits_append,
          chunkBits_squareChunks b sq (hall sq (by simp)) (by simpa using hkeep),
          ih (fun s hs pt hp => hall s (by simp [hs]) pt hp)]
      · rw [if_neg hkeep]
        exact ih (fun s hs pt hp => hall s (by simp [hs]) pt hp)

/-- The bit image of the written chunks is exactly the documented layout. -/
theorem chunkBits_posChunks (b : Board)
    (hwk : b.wk < 64) (hbk : b.bk < 64)
    (hpt : ∀ sq ∈ squaresA8H1, ∀ pt, b.pieceTypeAt sq = some pt →
      1 ≤ pt ∧ pt ≤ 6)
    (hep : ∀ sq, b.ep = some sq → 0 < sq ∧ sq < 64)
    (hhm : b.halfmove < 65536) (hfm : b.fullmove < 65536) :
    chunkBits (posChunks b) = specBits b := by
  have ht : natBits (if b.turn then 0 else 1) 1 = [decide (b.turn = false)] := by
    rcases b.turn with _ | _ <;> rfl
  have hc1 : natBits (if b.castleWK then 1 else 0) 1 = [b.castleWK] := by
    rcases b.castleWK with _ | _ <;> rfl
  have hc2 : natBits (if b.castleWQ then 1 else 0) 1 = [b.castleWQ] := by
    rcases b.castleWQ with _ | _ <;> rfl
  have hc3 : natBits (if b.castleBK then 1 else 0) 1 = [b.castleBK] := by
    rcases b.castleBK with _ | _ <;> rfl
  have hc4 : natBits (if b.castleBQ then 1 else 0) 1 = [b.castleBQ] := by
    rcases b.castleBQ with _ | _ <;> rfl
  have hhb : natBits ((b.halfmove >>> 6) &&& 1) 1 = [b.halfmove.testBit 6] := by
    show [decide (((b.halfmove >>> 6) &&& 1) % 2 = 1)] = [b.halfmove.testBit 6]
    rw [Nat.and_one_is_mod, Nat.mod_mod_of_dvd _ (dvd_refl 2),
      Nat.testBit_to_div_mod, Nat.shiftRight_eq_div_pow]
  have hwk2 : (b.wk % 65536) = b.wk := Nat.mod_eq_of_lt (by omega)
  have hbk2 : (b.bk % 65536) = b.bk := Nat.mod_eq_of_lt (by omega)
  have hhm2 : (b.halfmove % 65536) = b.halfmove := Nat.mod_eq_of_lt hhm
  have hfm2 : (b.fullmove % 65536) = b.fullmove := Nat.mod_eq_of_lt hfm
  have hfm8 : ((b.fullmove >>> 8) % 65536) = b.fullmove >>> 8 := by
    rw [Nat.shiftRight_eq_div_pow]
    exact Nat.mod_eq_of_lt (lt_of_le_of_lt (Nat.div_le_self _ _) hfm)
  have hbool : ∀ c : Bool,
      decide ((if c = true then (1 : Nat) else 0) % 2 = 1) = c := by
    intro c; rcases c with _ | _ <;> rfl
  unfold posChunks specBits
  rw [hwk2, hbk2, hhm2, hfm2, hfm8]
  rcases hepv : b.ep with _ | sq
  · simp only [chunkBits_append, chunkBits, chunkBits_flatMap_squares b hpt,
      ht, hc1, hc2, hc3, hc4, hhb]
    simp [List.append_assoc, natBits, chunkBits_append, chunkBits, hbool]
    have hsq := chunkBits_flatMap_squares b hpt
    simp only [ne_eq, decide_not] at hsq
    exact hsq
  · obtain ⟨hpos, hlt⟩ := hep sq hepv
    have hsq0 : ¬sq = 0 := by omega
    have hsq65 : sq % 65536 = sq := Nat.mod_eq_of_lt (by omega)
    simp only [hsq0, hsq65, if_false, ite_false, chunkBits_append, chunkBits,
      chunkBits_flatMap_squares b hpt, ht, hc1, hc2, hc3, hc4, hhb]
    simp [hsq0, hsq65, List.append_assoc, natBits, chunkBits_append, chunkBits,
      hbool]
    have hsq := chunkBits_flatMap_squares b hpt
    simp only [ne_eq, decide_not] at hsq
    exact hsq

/-- Every chunk value written by encode_position fits np.uint16. -/
theorem posChunks_values (b : Board) : ∀ c ∈ posChunks b, c.1 < 65536 := by
  unfold posChunks
  simp only [List.forall_mem_append]
  refine ⟨⟨⟨⟨?_, ?_⟩, ?_⟩, ?_⟩, ?_⟩
  · intro c hc
    simp only [List.mem_cons, List.not_mem_nil, or_false] at hc
    rcases hc with rfl | rfl | rfl
    · rcases b.turn with _ | _ <;> norm_num
    · exact Nat.mod_lt _ (by norm_num)
    · exact Nat.mod_lt _ (by norm_num)
  · intro c hc
    rw [List.mem_flatMap] at hc
    obtain ⟨sq, -, hcc⟩ := hc
    unfold squareChunks at hcc
    rcases h : b.pieceTypeAt sq with _ | pt
    · rw [h] at hcc
      simp only [List.mem_cons, List.not_mem_nil, or_false] at hcc
      subst hcc
      exact Nat.mod_lt _ (by norm_num)
    · rw [h] at hcc
      simp only [List.mem_cons, List.not_mem_nil, or_false] at hcc
      rcases hcc with rfl | rfl
      · exact Nat.mod_lt _ (by norm_num)
      · rcases b.colorAt sq with _ | _ <;> norm_num
  · intro c hc
    simp only [List.mem_cons, List.not_mem_nil, or_false] at hc
    rcases hc with rfl | rfl | rfl | rfl <;> split <;> norm_num
  · intro c hc
    rcases hep : b.ep with _ | sq
    · simp only [hep, List.mem_cons, List.not_mem_nil, or_false] at hc
      subst hc
      norm_num
    · by_cases hsq : sq = 0
      · simp only [hep, if_pos hsq, List.mem_cons, List.not_mem_nil,
          or_false] at hc
        subst hc
        norm_num
      · simp only [hep, if_neg hsq, List.mem_cons, List.not_mem_nil,
          or_false] at hc
        rcases hc with rfl | rfl
        · norm_num
        · exact Nat.mod_lt _ (by norm_num)
  · intro c hc
    simp only [List.mem_cons, List.not_mem_nil, or_false] at hc
    rcases hc with rfl | rfl | rfl | rfl
    · exact Nat.mod_lt _ (by norm_num)
    · exact Nat.mod_lt _ (by norm_num)
    · exact Nat.mod_lt _ (by norm_num)
    · have h := Nat.and_le_right (n := b.halfmove >>> 6) (m := 1)
      omega

/-- Spec bit count per square: one bit if empty, five if occupied. -/
theorem flatMap_specSquareBits_length (b : Board) :
    ∀ sqs : List Nat,
      (sqs.flatMap (specSquareBits b)).length =
        sqs.length + 4 * sqs.countP (fun sq => (b.pieceTypeAt sq).isSome) := by
  intro sqs
  induction sqs with
  | nil => rfl
  | cons sq sqs ih =>
      rw [List.flatMap_cons, List.length_append, ih, List.countP_cons]
      unfold specSquareBits
      rcases h : b.pieceTypeAt sq with _ | pt
      · simp [h]
        omega
      · simp [h, natBits_length]
        omega

/-- With at most 30 occupied non-king squares (true of every legal chess
position) the documented layout fits in the 32-byte block. -/
theorem specBits_length_le (b : Board)
    (hocc : (squaresA8H1.filter
        (fun sq => decide (b.pieceTypeAt sq ≠ some KING))).countP
          (fun sq => (b.pieceTypeAt sq).isSome) ≤ 30) :
    (specBits b).length ≤ 256 := by
  have hfl : (squaresA8H1.filter
      (fun sq => decide (b.pieceTypeAt sq ≠ some KING))).length ≤ 64 := by
    calc (squaresA8H1.filter
        (fun sq => decide (b.pieceTypeAt sq ≠ some KING))).length
        ≤ squaresA8H1.length := List.length_filter_le _ _
      _ = 64 := by decide
  unfold specBits
  simp only [List.length_append, List.length_cons, List.length_nil,
    natBits_length, flatMap_specSquareBits_length]
  rcases b.ep with _ | sq
  · simp only [List.length_cons, List.length_nil]
    omega
  · simp only [List.length_cons, natBits_length]
    omega

/-- C2: for every position with kings on the board (6-bit king squares),
valid piece types, a valid en-passant square, and clock fields in uint16
range, the 32-byte block produced by encode_position lays out its bits
exactly per the documented table: reading the buffer bit 0 first, it is
the side-to-move bit (0 when white moves), the 6-bit white and black king
squares, per non-king square in a8-h1 order a 0 bit if empty or the 4-bit
odd piece code (pawn=1, knight=3, bishop=5, rook=7, queen=9) plus a color
bit, the four castling bits, the en-passant presence bit with a 6-bit
square when set, the low 6 bits of the half-move clock, the low then high
8 bits of the full-move number, and the half-move-clock high bit; the
layout fits in 256 bits and all remaining bits of the block are zero. -/
theorem encode_position_bit_exact (b : Board)
    (hwk : b.wk < 64) (hbk : b.bk < 64)
    (hpt : ∀ sq ∈ squaresA8H1, ∀ pt, b.pieceTypeAt sq = some pt →
      1 ≤ pt ∧ pt ≤ 6)
    (hep : ∀ sq, b.ep = some sq → 0 < sq ∧ sq < 64)
    (hhm : b.halfmove < 65536) (hfm : b.fullmove < 65536)
    (hocc : (squaresA8H1.filter
        (fun sq => decide (b.pieceTypeAt sq ≠ some KING))).countP
          (fun sq => (b.pieceTypeAt sq).isSome) ≤ 30) :
    encode_position b = natOfBits (specBits b) ∧
    (specBits b).length ≤ 256 ∧
    encode_position b < 2 ^ (specBits b).length := by
  have h1 : encode_position b = natOfBits (specBits b) := by
    rw [encode_position_eq_writeChunks b,
      writeChunks_eq (posChunks b) 0 0 (by norm_num) (posChunks_values b),
      chunkBits_posChunks b hwk hbk hpt hep hhm hfm]
    simp
  refine ⟨h1, specBits_length_le b hocc, ?_⟩
  rw [h1]
  exact natOfBits_lt _

/-- The bit-exactness theorem applied to the bare-kings board. -/
theorem encode_position_bit_exact_witness :
    encode_position kingsBoard = natOfBits (specBits kingsBoard) ∧
    (specBits kingsBoard).length ≤ 256 ∧
    encode_position kingsBoard < 2 ^ (specBits kingsBoard).length :=
  encode_position_bit_exact kingsBoard
    (by decide) (by decide)
    (by
      intro sq _ pt h
      simp only [kingsBoard] at h
      split at h
      · injection h with h2
        subst h2
        decide
      · split at h
        · injection h with h2
          subst h2
          decide
        · exact Option.noConfusion h)
    (fun sq h => Option.noConfusion h)
    (by decide) (by decide) (by decide)
